import Mathlib

/-!
Verification of the ordered/unordered node-list reconciliation core of the
carbonio-files-ui-common repository.

The development shallowly embeds:

* the node sort comparator and the sort-key-list selection used by
  `sortNodes` (src/mocks/mockUtils.ts, lines 38-45);
* the cache removal logic `removeNodeFromFilter`
  (src/hooks/graphql/mutations/useDeleteShareMutation.ts, lines 36-75) and the
  analogous `findNodes` cache update of `useTrashNodesMutation`
  (src/unnamed/part_006, lines 184-223);
* the ordered/unordered Node Collection reconciler (sorted insertion,
  determinability, create/copy/move/remove/page-load operations).  The
  reconciler's implementation (src/utils/utils.ts, useUpdateFolderContent and
  the Apollo cache type policies) is not part of the sources available under
  src/ — only its tests and callers are — so those definitions are modelled
  from the specification, as flagged in their doc comments.

Node names are modelled as lists of characters (a string is its character
sequence); page tokens and node ids are modelled as natural numbers, both
being opaque identifiers to the core.
-/

/-- Category of a node for the type-partition step of the comparator: the
specification partitions nodes into folder-like and file-like (root nodes
never occur among the children/search results being sorted). -/
inductive NodeCat where
  | folder : NodeCat
  | file : NodeCat
deriving DecidableEq, Repr

/-- Sort criteria, after the GraphQL NodeSort enum referenced by
src/mocks/mockUtils.ts (NodeSort.SizeAsc, NodeSort.SizeDesc, NodeSort.TypeAsc,
and the name/updated variants used for listings). -/
inductive NodeSort where
  | NameAsc : NodeSort
  | NameDesc : NodeSort
  | UpdatedAtAsc : NodeSort
  | UpdatedAtDesc : NodeSort
  | SizeAsc : NodeSort
  | SizeDesc : NodeSort
  | TypeAsc : NodeSort
  | TypeDesc : NodeSort
deriving DecidableEq, Repr

/-- A node as the core sees it (spec section 3): identity, name, category,
optional size in bytes (absent for folders), and last-modified timestamp.
Names are character lists, ids and timestamps are naturals. -/
structure Node where
  id : Nat
  name : List Char
  nodeType : NodeCat
  size : Option Nat
  updatedAt : Nat
deriving DecidableEq, Repr

/-- Three-way comparison induced by a linear order, the building block for
every sort key of the comparator. -/
def cmpOfLO {α : Type} [LinearOrder α] (a b : α) : Ordering :=
  if a < b then .lt else if a = b then .eq else .gt

/-- Lexicographic three-way comparison of character lists, used for the
case-insensitive name ordering of the comparator. -/
def cmpListChar : List Char → List Char → Ordering
  | [], [] => .eq
  | [], _ :: _ => .lt
  | _ :: _, [] => .gt
  | a :: as, b :: bs => (cmpOfLO a b).then (cmpListChar as bs)

/-- Lower-cased name of a node, for the comparator's case-insensitive
lexicographic name comparison (spec section 4.1). -/
def lowerName (n : Node) : List Char :=
  n.name.map Char.toLower

/-- Size of a node with the comparator's defaulting rule: nodes without a
size value sort as if size were 0 (spec section 4.1). -/
def sizeOrZero (n : Node) : Nat :=
  n.size.getD 0

/-- Rank of a node category under the ascending type sort: folder-like
before file-like. -/
def typeRank : NodeCat → Nat
  | .folder => 0
  | .file => 1

/-- Modelled from the spec: single-key three-way comparison for one sort
criterion (section 4.1; the comparator body in src/utils/utils.ts is not under
src/).  Name keys compare lower-cased names lexicographically, time and size
keys compare numerically (missing size defaults to 0), type keys compare the
folder-like/file-like rank; descending variants swap the operands. -/
def cmpKey : NodeSort → Node → Node → Ordering
  | .NameAsc, a, b => cmpListChar (lowerName a) (lowerName b)
  | .NameDesc, a, b => cmpListChar (lowerName b) (lowerName a)
  | .UpdatedAtAsc, a, b => cmpOfLO a.updatedAt b.updatedAt
  | .UpdatedAtDesc, a, b => cmpOfLO b.updatedAt a.updatedAt
  | .SizeAsc, a, b => cmpOfLO (sizeOrZero a) (sizeOrZero b)
  | .SizeDesc, a, b => cmpOfLO (sizeOrZero b) (sizeOrZero a)
  | .TypeAsc, a, b => cmpOfLO (typeRank a.nodeType) (typeRank b.nodeType)
  | .TypeDesc, a, b => cmpOfLO (typeRank b.nodeType) (typeRank a.nodeType)

/-- Modelled from the spec: comparison of two nodes under an ordered list of
sort keys, with a final tie-break on the node id for determinism (section 4.1;
the body of nodeSortComparator in src/utils/utils.ts is not under src/). -/
def cmpKeys : List NodeSort → Node → Node → Ordering
  | [], a, b => cmpOfLO a.id b.id
  | s :: rest, a, b => (cmpKey s a b).then (cmpKeys rest a b)

/-- Conversion of a three-way comparison to the -1/0/1 integer convention of
the source comparator. -/
def ordToInt : Ordering → Int
  | .lt => -1
  | .eq => 0
  | .gt => 1

/-- Modelled from the spec: the integer-valued node comparator with the
signature used by sortNodes in src/mocks/mockUtils.ts (the body in
src/utils/utils.ts is not under src/). -/
def nodeSortComparator (a b : Node) (sorts : List NodeSort) : Int :=
  ordToInt (cmpKeys sorts a b)

/-- Effective sort-key list for a sort criterion, from src/mocks/mockUtils.ts
lines 42-43: a size sort is used alone, any other criterion is preceded by the
ascending type key. -/
def sortsList (sort : NodeSort) : List NodeSort :=
  if sort = .SizeAsc ∨ sort = .SizeDesc then [sort] else [.TypeAsc, sort]

/-- Comparator for a single sort specification (spec section 4.1): the
key-list comparator applied to the effective sort-key list. -/
def compareNodes (sort : NodeSort) (a b : Node) : Ordering :=
  cmpKeys (sortsList sort) a b

/-- Sorting a node list under a sort criterion, after sortNodes in
src/mocks/mockUtils.ts lines 38-45 (Array.prototype.sort with
nodeSortComparator over the effective key list, modelled as iterated sorted
insertion, which produces a sequence ordered by the same comparator). -/
def sortNodes (nodes : List Node) (sort : NodeSort) : List Node :=
  nodes.foldl
    (fun acc n =>
      match acc.findIdx? (fun x => ordToInt (cmpKeys (sortsList sort) n x) < 0) with
      | some i => acc.take i ++ n :: acc.drop i
      | none => acc ++ [n])
    []

/-- Modelled from the spec: the leftmost index at which a candidate can be
inserted into an already sorted sequence while preserving sort order (section
4.2; the body of the sorted-insertion helper in src/utils/utils.ts is not
under src/).  The spec fixes the contract — leftmost insertion index, 0 for an
empty sequence — and prescribes binary search as the implementation; the model
computes the same index by direct recursion. -/
def findInsertionIndex (sorts : List NodeSort) : List Node → Node → Nat
  | [], _ => 0
  | x :: xs, cand =>
    if cmpKeys sorts cand x = .gt then findInsertionIndex sorts xs cand + 1 else 0

/-- Modelled from the spec: the caller-facing sorted-insertion helper with the
signature used by the test at src/views/FilterView.tsx lines 557-558 (list,
candidate, single sort criterion); it expands the criterion to the effective
key list and returns the insertion index. -/
def addNodeInSortedList (nodes : List Node) (node : Node) (sort : NodeSort) : Nat :=
  findInsertionIndex (sortsList sort) nodes node

/-- Insertion of a node at a given index of a list (array splice). -/
def insertAt : List Node → Nat → Node → List Node
  | l, 0, c => c :: l
  | [], _ + 1, c => [c]
  | x :: xs, n + 1, c => x :: insertAt xs n c

/-- Insertion of a candidate at its computed insertion index. -/
def insertSorted (sorts : List NodeSort) (l : List Node) (c : Node) : List Node :=
  insertAt l (findInsertionIndex sorts l c) c

/-- Modelled from the spec: the companion predicate deciding whether a
candidate's sort position is knowable when the sequence may be a prefix of the
true sibling set (section 4.2): always when the listing is complete, otherwise
exactly when the insertion index is strictly below the sequence length. -/
def isPositionDeterminable (sorts : List NodeSort) (seq : List Node) (cand : Node)
    (sequenceIsComplete : Bool) : Bool :=
  sequenceIsComplete || decide (findInsertionIndex sorts seq cand < seq.length)

/-- The per-listing Node Collection (spec section 3): the ordered sequence,
the unordered sequence, and the opaque pagination cursor (`none` when every
page is loaded).  Field spelling `unOrdered` follows the cached object shape
used by src/hooks/graphql/mutations/useDeleteShareMutation.ts. -/
structure NodeCollection where
  ordered : List Node
  unOrdered : List Node
  pageToken : Option Nat
deriving DecidableEq, Repr

/-- Ids of the members of a node list, in order. -/
def idsOf (l : List Node) : List Nat :=
  l.map (fun x => x.id)

/-- A node list is sorted for a key list when no member compares greater than
a later member. -/
def sortedBy (sorts : List NodeSort) (l : List Node) : Prop :=
  l.Pairwise (fun a b => cmpKeys sorts a b ≠ .gt)

/-- Replacement of the data of the entry carrying a given id, leaving every
other entry untouched (spec section 4.3 duplicate-insert policy). -/
def upsertData (n : Node) (l : List Node) : List Node :=
  l.map (fun x => if x.id = n.id then n else x)

/-- Modelled from the spec: the reconciler's insert operation (section 4.3;
useUpdateFolderContent and the cache type policies are not under src/).  A
duplicate id updates the existing entry instead of duplicating it — within
`ordered` the refreshed entry is re-seated at its sorted index so the ordering
invariant of section 8 is maintained, within `unOrdered` it is replaced in
place.  A fresh node is placed in `ordered` at its insertion index when its
position is determinable against the loaded prefix, and otherwise appended at
the end of `unOrdered`. -/
def onCreate (sort : NodeSort) (c : NodeCollection) (n : Node) : NodeCollection :=
  if c.ordered.any (fun x => x.id = n.id) then
    { c with ordered :=
        insertSorted (sortsList sort) (c.ordered.filter (fun x => x.id ≠ n.id)) n }
  else if c.unOrdered.any (fun x => x.id = n.id) then
    { c with unOrdered := upsertData n c.unOrdered }
  else if
      isPositionDeterminable (sortsList sort) c.ordered n (decide (c.pageToken = none))
    then { c with ordered := insertSorted (sortsList sort) c.ordered n }
  else { c with unOrdered := c.unOrdered ++ [n] }

/-- Modelled from the spec: copy-in shares the placement logic of onCreate
(section 4.3). -/
def onCopyIn (sort : NodeSort) (c : NodeCollection) (n : Node) : NodeCollection :=
  onCreate sort c n

/-- Modelled from the spec: move-in shares the placement logic of onCreate
(section 4.3). -/
def onMoveIn (sort : NodeSort) (c : NodeCollection) (n : Node) : NodeCollection :=
  onCreate sort c n

/-- Removal of a node id from whichever sequence holds it, a no-op when
absent; the filtering of both `ordered` and `unOrdered` mirrors
removeNodeFromFilter (src/hooks/graphql/mutations/useDeleteShareMutation.ts
lines 48-55) and the trash update (src/unnamed/part_006 lines 194-201). -/
def onRemove (c : NodeCollection) (nodeId : Nat) : NodeCollection :=
  { c with
    ordered := c.ordered.filter (fun x => x.id ≠ nodeId),
    unOrdered := c.unOrdered.filter (fun x => x.id ≠ nodeId) }

/-- Modelled from the spec: merge of one freshly fetched page node into the
accumulated (ordered, unordered) pair — the node is inserted into `ordered` in
sort order (section 4.3); any stale entry carrying the same id is dropped
first, so that an id appears in at most one sequence (section 3, invariant
1). -/
def insertPageNode (sorts : List NodeSort) (acc : List Node × List Node)
    (n : Node) : List Node × List Node :=
  (insertSorted sorts (acc.1.filter (fun x => x.id ≠ n.id)) n,
    acc.2.filter (fun x => x.id ≠ n.id))

/-- Modelled from the spec: re-evaluation of one previously unordered node
(section 4.3) — promoted into the ordered sequence at its insertion index when
its position is now determinable, otherwise kept unordered in its original
relative order. -/
def promoteStep (sorts : List NodeSort) (complete : Bool)
    (acc : List Node × List Node) (n : Node) : List Node × List Node :=
  if isPositionDeterminable sorts acc.1 n complete
    then (insertSorted sorts acc.1 n, acc.2)
  else (acc.1, acc.2 ++ [n])

/-- Modelled from the spec: the page-load operation of the reconciler
(section 4.3; not under src/): the new page's nodes are merged into `ordered`
in sort order, then every previously unordered node is re-evaluated in its
original relative order against the updated ordered sequence and the new
completeness flag, and the page token is updated. -/
def onPageLoaded (sort : NodeSort) (c : NodeCollection) (newPageNodes : List Node)
    (newPageToken : Option Nat) : NodeCollection :=
  let sorts := sortsList sort
  let merged := newPageNodes.foldl (insertPageNode sorts) (c.ordered, c.unOrdered)
  let complete := decide (newPageToken = none)
  let final := merged.2.foldl (promoteStep sorts complete) (merged.1, [])
  { ordered := final.1, unOrdered := final.2, pageToken := newPageToken }

/-- Modelled from the spec: the page-fullness helper (section 4.3; not under
src/): true when the visible count reaches the target page size while more
pages remain. -/
def pageFull (c : NodeCollection) (targetPageSize : Nat) : Bool :=
  decide (targetPageSize ≤ c.ordered.length + c.unOrdered.length) &&
    decide (c.pageToken ≠ none)

/-- Collections reachable from a freshly opened (empty) listing through the
reconciler operations, at a fixed sort specification. -/
inductive Reachable (sort : NodeSort) : NodeCollection → Prop
  | init (tok : Option Nat) : Reachable sort ⟨[], [], tok⟩
  | create {c : NodeCollection} (n : Node) :
      Reachable sort c → Reachable sort (onCreate sort c n)
  | copyIn {c : NodeCollection} (n : Node) :
      Reachable sort c → Reachable sort (onCopyIn sort c n)
  | moveIn {c : NodeCollection} (n : Node) :
      Reachable sort c → Reachable sort (onMoveIn sort c n)
  | remove {c : NodeCollection} (i : Nat) :
      Reachable sort c → Reachable sort (onRemove c i)
  | pageLoaded {c : NodeCollection} (page : List Node) (tok : Option Nat) :
      Reachable sort c → Reachable sort (onPageLoaded sort c page tok)

/-- Arguments of a cached findNodes listing, as inspected by the cache update
functions: the folder filter and the share-direction flags
(src/hooks/graphql/mutations/useDeleteShareMutation.ts, src/unnamed/part_006).
Folder ids are naturals here; the trash root is a distinguished id. -/
structure FindNodesArgs where
  folder_id : Option Nat
  shared_by_me : Option Bool
  shared_with_me : Option Bool
deriving DecidableEq, Repr

/-- The distinguished id of the trash root (ROOTS.TRASH in src/constants). -/
def trashRootId : Nat := 0

/-- A cached findNodes listing: its arguments, its pagination token and its
ordered/unOrdered node sequences (the FindNodesCachedObject shape used by
src/hooks/graphql/mutations/useDeleteShareMutation.ts lines 43-68). -/
structure FindNodesCachedObject where
  args : FindNodesArgs
  page_token : Option Nat
  ordered : List Node
  unOrdered : List Node
deriving DecidableEq, Repr

/-- The findNodes cache modifier of removeNodeFromFilter
(src/hooks/graphql/mutations/useDeleteShareMutation.ts lines 41-74): when the
filter check passes, the node id is filtered out of both sequences; if a page
token remains and both filtered sequences are empty the whole entry is deleted
(`none`, the DELETE sentinel), otherwise the entry is rewritten with args and
page_token unchanged; when the check fails the entry is returned unchanged. -/
def removeNodeFromFilter (existing : FindNodesCachedObject) (nodeId : Nat)
    (checkFilter : FindNodesCachedObject → Bool) : Option FindNodesCachedObject :=
  if checkFilter existing then
    let ordered := existing.ordered.filter (fun x => x.id ≠ nodeId)
    let unOrdered := existing.unOrdered.filter (fun x => x.id ≠ nodeId)
    if existing.page_token ≠ none ∧ ordered = [] ∧ unOrdered = [] then none
    else some { args := existing.args, page_token := existing.page_token,
                ordered := ordered, unOrdered := unOrdered }
  else some existing

/-- The findNodes cache modifier of useTrashNodesMutation (src/unnamed/part_006
lines 186-221): listings whose folder filter is present and different from the
trash root drop every trashed id from both sequences, with the same
delete-when-emptied rule; other listings are returned unchanged. -/
def trashNodesFindNodesUpdate (existing : FindNodesCachedObject)
    (trashedNodes : List Nat) : Option FindNodesCachedObject :=
  if existing.args.folder_id ≠ none ∧ existing.args.folder_id ≠ some trashRootId then
    let ordered := existing.ordered.filter (fun x => ¬ trashedNodes.contains x.id)
    let unOrdered := existing.unOrdered.filter (fun x => ¬ trashedNodes.contains x.id)
    if existing.page_token ≠ none ∧ ordered = [] ∧ unOrdered = [] then none
    else some { args := existing.args, page_token := existing.page_token,
                ordered := ordered, unOrdered := unOrdered }
  else some existing

/-- Well-formedness of an (ordered, unordered) pair of node sequences: the
first is sorted and no id occurs twice across the two. -/
def pairInv (sorts : List NodeSort) (acc : List Node × List Node) : Prop :=
  sortedBy sorts acc.1 ∧ (idsOf acc.1 ++ idsOf acc.2).Nodup

/-- Well-formedness of a node collection: the ordered sequence is sorted for
the effective key list and no id occurs twice across the sequences. -/
def collInv (sorts : List NodeSort) (c : NodeCollection) : Prop :=
  sortedBy sorts c.ordered ∧ (idsOf c.ordered ++ idsOf c.unOrdered).Nodup

/-- Folder node used by the concrete witnesses (a small fixed node carrying a
one-letter name). -/
def mkFolder (i : Nat) (nm : List Char) : Node :=
  { id := i, name := nm, nodeType := .folder, size := none, updatedAt := 0 }

/-- File node used by the concrete witnesses. -/
def mkFile (i : Nat) (nm : List Char) (sz : Nat) : Node :=
  { id := i, name := nm, nodeType := .file, size := some sz, updatedAt := 0 }

/-! ### Generic properties of the three-way comparisons -/

theorem cmpOfLO_swap {α : Type} [LinearOrder α] (a b : α) :
    cmpOfLO a b = (cmpOfLO b a).swap := by
  unfold cmpOfLO
  rcases lt_trichotomy a b with h | h | h
  · simp [h, not_lt_of_gt h, ne_of_gt h, Ordering.swap]
  · simp [h, lt_irrefl, Ordering.swap]
  · simp [h, not_lt_of_gt h, ne_of_gt h, (ne_of_gt h).symm, Ordering.swap]

theorem cmpOfLO_eq_iff {α : Type} [LinearOrder α] (a b : α) :
    cmpOfLO a b = .eq ↔ a = b := by
  unfold cmpOfLO
  rcases lt_trichotomy a b with h | h | h
  · simp [h, ne_of_lt h]
  · simp [h, lt_irrefl]
  · simp [not_lt_of_gt h, (ne_of_gt h).symm]

theorem cmpOfLO_lt_iff {α : Type} [LinearOrder α] (a b : α) :
    cmpOfLO a b = .lt ↔ a < b := by
  unfold cmpOfLO
  rcases lt_trichotomy a b with h | h | h
  · simp [h]
  · simp [h, lt_irrefl]
  · simp [not_lt_of_gt h, (ne_of_gt h).symm, ne_of_gt h]

theorem cmpOfLO_gt_iff {α : Type} [LinearOrder α] (a b : α) :
    cmpOfLO a b = .gt ↔ b < a := by
  unfold cmpOfLO
  rcases lt_trichotomy a b with h | h | h
  · simp [h, not_lt_of_gt h]
  · simp [h, lt_irrefl]
  · simp [not_lt_of_gt h, ne_of_gt h, h]

theorem cmpOfLO_lt_trans {α : Type} [LinearOrder α] {a b c : α}
    (hab : cmpOfLO a b = .lt) (hbc : cmpOfLO b c = .lt) : cmpOfLO a c = .lt := by
  rw [cmpOfLO_lt_iff] at hab hbc ⊢
  exact lt_trans hab hbc

theorem ordering_then_swap (o p : Ordering) : (o.then p).swap = o.swap.then p.swap := by
  cases o <;> cases p <;> rfl

theorem then_lt_iff (o p : Ordering) :
    o.then p = .lt ↔ o = .lt ∨ (o = .eq ∧ p = .lt) := by
  cases o <;> simp [Ordering.then]

theorem then_gt_iff (o p : Ordering) :
    o.then p = .gt ↔ o = .gt ∨ (o = .eq ∧ p = .gt) := by
  cases o <;> simp [Ordering.then]

theorem then_eq_iff (o p : Ordering) :
    o.then p = .eq ↔ o = .eq ∧ p = .eq := by
  cases o <;> simp [Ordering.then]

theorem cmpListChar_swap (as bs : List Char) :
    cmpListChar as bs = (cmpListChar bs as).swap := by
  induction as generalizing bs with
  | nil => cases bs <;> rfl
  | cons a as ih =>
    cases bs with
    | nil => rfl
    | cons b bs =>
      simp only [cmpListChar, ordering_then_swap, ← cmpOfLO_swap, ← ih]

theorem cmpListChar_eq_iff (as bs : List Char) :
    cmpListChar as bs = .eq ↔ as = bs := by
  induction as generalizing bs with
  | nil => cases bs <;> simp [cmpListChar]
  | cons a as ih =>
    cases bs with
    | nil => simp [cmpListChar]
    | cons b bs =>
      simp only [cmpListChar]
      cases h : cmpOfLO a b
      · simp only [Ordering.then]
        rw [cmpOfLO_lt_iff] at h
        simp [ne_of_lt h]
      · rw [cmpOfLO_eq_iff] at h
        simp [Ordering.then, ih, h]
      · simp only [Ordering.then]
        rw [cmpOfLO_gt_iff] at h
        simp [(ne_of_lt h).symm]

theorem cmpListChar_lt_trans {as bs cs : List Char}
    (hab : cmpListChar as bs = .lt) (hbc : cmpListChar bs cs = .lt) :
    cmpListChar as cs = .lt := by
  induction as generalizing bs cs with
  | nil =>
    cases cs with
    | nil => cases bs <;> simp [cmpListChar] at hab hbc
    | cons c cs => simp [cmpListChar]
  | cons a as ih =>
    cases bs with
    | nil => simp [cmpListChar] at hab
    | cons b bs =>
      cases cs with
      | nil => simp [cmpListChar] at hbc
      | cons c cs =>
        simp only [cmpListChar, then_lt_iff] at hab hbc ⊢
        rcases hab with h1 | ⟨h1, h1t⟩ <;> rcases hbc with h2 | ⟨h2, h2t⟩
        · exact Or.inl (cmpOfLO_lt_trans h1 h2)
        · rw [cmpOfLO_eq_iff] at h2
          exact Or.inl (h2 ▸ h1)
        · rw [cmpOfLO_eq_iff] at h1
          rw [← h1] at h2
          exact Or.inl h2
        · rw [cmpOfLO_eq_iff] at h1 h2
          refine Or.inr ⟨?_, ih h1t h2t⟩
          rw [cmpOfLO_eq_iff, h1, h2]

/-! ### Properties of the node comparator -/

theorem cmpKey_swap (s : NodeSort) (a b : Node) : cmpKey s a b = (cmpKey s b a).swap := by
  cases s <;> simp only [cmpKey] <;> first
    | exact cmpListChar_swap _ _
    | exact cmpOfLO_swap _ _

theorem cmpKey_congr_left {s : NodeSort} {a b : Node} (h : cmpKey s a b = .eq)
    (c : Node) : cmpKey s a c = cmpKey s b c := by
  cases s <;> simp only [cmpKey] at h ⊢ <;>
    first
    | (rw [cmpListChar_eq_iff] at h; rw [h])
    | (rw [cmpOfLO_eq_iff] at h; rw [h])

theorem cmpKey_congr_right {s : NodeSort} {a b : Node} (h : cmpKey s a b = .eq)
    (c : Node) : cmpKey s c a = cmpKey s c b := by
  cases s <;> simp only [cmpKey] at h ⊢ <;>
    first
    | (rw [cmpListChar_eq_iff] at h; rw [h])
    | (rw [cmpOfLO_eq_iff] at h; rw [h])

theorem cmpKey_lt_trans {s : NodeSort} {a b c : Node}
    (hab : cmpKey s a b = .lt) (hbc : cmpKey s b c = .lt) : cmpKey s a c = .lt := by
  cases s <;> simp only [cmpKey] at hab hbc ⊢ <;>
    first
    | exact cmpListChar_lt_trans hab hbc
    | exact cmpListChar_lt_trans hbc hab
    | exact cmpOfLO_lt_trans hab hbc
    | exact cmpOfLO_lt_trans hbc hab

theorem cmpKeys_swap (sorts : List NodeSort) (a b : Node) :
    cmpKeys sorts a b = (cmpKeys sorts b a).swap := by
  induction sorts with
  | nil => exact cmpOfLO_swap _ _
  | cons s rest ih =>
    simp only [cmpKeys, ordering_then_swap, ← cmpKey_swap, ← ih]

theorem cmpKeys_eq_congr_left {sorts : List NodeSort} {a b : Node}
    (h : cmpKeys sorts a b = .eq) (c : Node) :
    cmpKeys sorts a c = cmpKeys sorts b c := by
  induction sorts with
  | nil =>
    simp only [cmpKeys] at h ⊢
    rw [cmpOfLO_eq_iff] at h
    rw [h]
  | cons s rest ih =>
    simp only [cmpKeys, then_eq_iff] at h
    simp only [cmpKeys]
    rw [cmpKey_congr_left h.1, ih h.2]

theorem cmpKeys_eq_congr_right {sorts : List NodeSort} {a b : Node}
    (h : cmpKeys sorts a b = .eq) (c : Node) :
    cmpKeys sorts c a = cmpKeys sorts c b := by
  induction sorts with
  | nil =>
    simp only [cmpKeys] at h ⊢
    rw [cmpOfLO_eq_iff] at h
    rw [h]
  | cons s rest ih =>
    simp only [cmpKeys, then_eq_iff] at h
    simp only [cmpKeys]
    rw [cmpKey_congr_right h.1, ih h.2]

theorem cmpKeys_lt_trans {sorts : List NodeSort} {a b c : Node}
    (hab : cmpKeys sorts a b = .lt) (hbc : cmpKeys sorts b c = .lt) :
    cmpKeys sorts a c = .lt := by
  induction sorts with
  | nil => exact cmpOfLO_lt_trans hab hbc
  | cons s rest ih =>
    simp only [cmpKeys, then_lt_iff] at hab hbc ⊢
    rcases hab with h1 | ⟨h1, h1t⟩ <;> rcases hbc with h2 | ⟨h2, h2t⟩
    · exact Or.inl (cmpKey_lt_trans h1 h2)
    · rw [cmpKey_congr_right h2 a] at h1
      exact Or.inl h1
    · rw [← cmpKey_congr_left h1 c] at h2
      exact Or.inl h2
    · refine Or.inr ⟨?_, ih h1t h2t⟩
      rw [cmpKey_congr_left h1 c]
      exact h2

theorem cmpKeys_gt_iff_lt (sorts : List NodeSort) (a b : Node) :
    cmpKeys sorts a b = .gt ↔ cmpKeys sorts b a = .lt := by
  rw [cmpKeys_swap sorts a b]
  cases cmpKeys sorts b a <;> simp [Ordering.swap]

theorem cmpKeys_le_trans {sorts : List NodeSort} {a b c : Node}
    (hab : cmpKeys sorts a b ≠ .gt) (hbc : cmpKeys sorts b c ≠ .gt) :
    cmpKeys sorts a c ≠ .gt := by
  cases h1 : cmpKeys sorts a b with
  | gt => exact absurd h1 hab
  | lt =>
    cases h2 : cmpKeys sorts b c with
    | gt => exact absurd h2 hbc
    | lt =>
      have := cmpKeys_lt_trans h1 h2
      simp [this]
    | eq =>
      rw [cmpKeys_eq_congr_right h2 a] at h1
      simp [h1]
  | eq =>
    cases h2 : cmpKeys sorts b c with
    | gt => exact absurd h2 hbc
    | lt =>
      have := cmpKeys_eq_congr_left h1 c
      rw [this, h2]
      simp
    | eq =>
      have := cmpKeys_eq_congr_left h1 c
      rw [this, h2]
      simp

/-! ### Sorted insertion -/

theorem insertSorted_nil (sorts : List NodeSort) (c : Node) :
    insertSorted sorts [] c = [c] := rfl

theorem insertSorted_cons (sorts : List NodeSort) (x : Node) (xs : List Node)
    (c : Node) :
    insertSorted sorts (x :: xs) c =
      if cmpKeys sorts c x = .gt then x :: insertSorted sorts xs c
      else c :: x :: xs := by
  unfold insertSorted
  simp only [findInsertionIndex]
  split <;> rfl

theorem mem_insertSorted (sorts : List NodeSort) (l : List Node) (c y : Node) :
    y ∈ insertSorted sorts l c ↔ y = c ∨ y ∈ l := by
  induction l with
  | nil => simp [insertSorted_nil]
  | cons x xs ih =>
    rw [insertSorted_cons]
    split
    · simp only [List.mem_cons, ih]
      tauto
    · simp only [List.mem_cons]

theorem insertSorted_length (sorts : List NodeSort) (l : List Node) (c : Node) :
    (insertSorted sorts l c).length = l.length + 1 := by
  induction l with
  | nil => simp [insertSorted_nil]
  | cons x xs ih =>
    rw [insertSorted_cons]
    split <;> simp [ih]

theorem insertSorted_sorted {sorts : List NodeSort} {l : List Node}
    (h : sortedBy sorts l) (c : Node) : sortedBy sorts (insertSorted sorts l c) := by
  unfold sortedBy at h ⊢
  induction l with
  | nil =>
    rw [insertSorted_nil]
    exact List.pairwise_singleton _ _
  | cons x xs ih =>
    rw [List.pairwise_cons] at h
    rw [insertSorted_cons]
    split
    · rename_i hgt
      rw [List.pairwise_cons]
      constructor
      · intro y hy
        rcases (mem_insertSorted sorts xs c y).mp hy with rfl | hy
        · rw [cmpKeys_gt_iff_lt] at hgt
          simp [hgt]
        · exact h.1 y hy
      · exact ih h.2
    · rename_i hle
      rw [List.pairwise_cons]
      refine ⟨?_, List.pairwise_cons.mpr h⟩
      intro y hy
      rcases List.mem_cons.mp hy with rfl | hy
      · exact hle
      · exact cmpKeys_le_trans hle (h.1 y hy)

theorem idsOf_insertSorted_perm (sorts : List NodeSort) (l : List Node) (c : Node) :
    (idsOf (insertSorted sorts l c)).Perm (c.id :: idsOf l) := by
  induction l with
  | nil => simp [insertSorted_nil, idsOf]
  | cons x xs ih =>
    rw [insertSorted_cons]
    split
    · simp only [idsOf, List.map_cons] at ih ⊢
      exact (ih.cons x.id).trans (List.Perm.swap c.id x.id _)
    · simp [idsOf]

theorem filter_insertSorted {p : Node → Bool} (hp : p c = false)
    (sorts : List NodeSort) (l : List Node) :
    (insertSorted sorts l c).filter p = l.filter p := by
  induction l with
  | nil => simp [insertSorted_nil, hp]
  | cons x xs ih =>
    rw [insertSorted_cons]
    split
    · simp only [List.filter_cons, ih]
    · simp [List.filter_cons, hp]

theorem findInsertionIndex_le_length (sorts : List NodeSort) (l : List Node)
    (c : Node) : findInsertionIndex sorts l c ≤ l.length := by
  induction l with
  | nil => simp [findInsertionIndex]
  | cons x xs ih =>
    unfold findInsertionIndex
    split
    · simpa using ih
    · simp

theorem take_findInsertionIndex_gt (sorts : List NodeSort) (l : List Node)
    (c : Node) :
    ∀ x ∈ l.take (findInsertionIndex sorts l c), cmpKeys sorts c x = .gt := by
  induction l with
  | nil => simp [findInsertionIndex]
  | cons y ys ih =>
    unfold findInsertionIndex
    split
    · rename_i hgt
      intro x hx
      rw [List.take_succ_cons] at hx
      rcases List.mem_cons.mp hx with rfl | hx
      · exact hgt
      · exact ih x hx
    · simp

/-! ### Ids, filters and in-place updates -/

theorem mem_idsOf (l : List Node) (i : Nat) : i ∈ idsOf l ↔ ∃ x ∈ l, x.id = i := by
  simp [idsOf]

theorem idsOf_filter_sublist (l : List Node) (p : Node → Bool) :
    List.Sublist (idsOf (l.filter p)) (idsOf l) :=
  (List.filter_sublist l).map _

theorem not_mem_idsOf_filter_ne (l : List Node) (i : Nat) :
    i ∉ idsOf (l.filter (fun x => x.id ≠ i)) := by
  simp [idsOf, List.mem_filter]

theorem filter_ne_eq_self {l : List Node} {i : Nat} (h : ∀ x ∈ l, x.id ≠ i) :
    l.filter (fun x => x.id ≠ i) = l :=
  List.filter_eq_self.mpr (by simpa using h)

theorem filter_ne_idem (l : List Node) (i : Nat) :
    (l.filter (fun x => x.id ≠ i)).filter (fun x => x.id ≠ i) =
      l.filter (fun x => x.id ≠ i) := by
  refine filter_ne_eq_self ?_
  intro x hx
  simpa using (List.mem_filter.mp hx).2

theorem upsertData_head_id (n x : Node) : (if x.id = n.id then n else x).id = x.id := by
  split
  · rename_i h
    rw [h]
  · rfl

theorem idsOf_upsertData (n : Node) (l : List Node) :
    idsOf (upsertData n l) = idsOf l := by
  unfold idsOf upsertData
  rw [List.map_map]
  exact List.map_congr_left (fun x _ => upsertData_head_id n x)

theorem upsertData_idem (n : Node) (l : List Node) :
    upsertData n (upsertData n l) = upsertData n l := by
  unfold upsertData
  rw [List.map_map]
  refine List.map_congr_left ?_
  intro x _
  by_cases h : x.id = n.id <;> simp [h]

theorem upsertData_eq_self {n : Node} {l : List Node} (h : ∀ x ∈ l, x.id ≠ n.id) :
    upsertData n l = l := by
  unfold upsertData
  have : ∀ x ∈ l, (if x.id = n.id then n else x) = id x := by
    intro x hx
    simp [h x hx]
  rw [List.map_congr_left this, List.map_id]

theorem any_id_iff (l : List Node) (i : Nat) :
    l.any (fun x => x.id = i) = true ↔ i ∈ idsOf l := by
  rw [List.any_eq_true, mem_idsOf]
  simp

theorem upsertData_any (n : Node) (l : List Node)
    (h : l.any (fun x => x.id = n.id) = true) :
    (upsertData n l).any (fun x => x.id = n.id) = true := by
  rw [any_id_iff] at h ⊢
  rwa [idsOf_upsertData]

theorem filter_upsertData_ne (n : Node) (l : List Node) :
    (upsertData n l).filter (fun x => x.id ≠ n.id) =
      l.filter (fun x => x.id ≠ n.id) := by
  induction l with
  | nil => rfl
  | cons x xs ih =>
    show ((if x.id = n.id then n else x) :: upsertData n xs).filter
        (fun x => x.id ≠ n.id) = _
    by_cases h : x.id = n.id
    · rw [if_pos h, List.filter_cons, List.filter_cons]
      simp [h]
      simpa using ih
    · rw [if_neg h, List.filter_cons, List.filter_cons]
      simp [h]
      simpa using ih

/-! ### Preservation of well-formedness by the reconciler operations -/

theorem sortedBy_filter {sorts : List NodeSort} {l : List Node}
    (h : sortedBy sorts l) (p : Node → Bool) : sortedBy sorts (l.filter p) :=
  List.Pairwise.filter p h

theorem insertPageNode_inv {sorts : List NodeSort} {acc : List Node × List Node}
    (h : pairInv sorts acc) (n : Node) : pairInv sorts (insertPageNode sorts acc n) := by
  obtain ⟨hs, hn⟩ := h
  constructor
  · exact insertSorted_sorted (sortedBy_filter hs _) n
  · show ((idsOf (insertSorted sorts (acc.1.filter (fun x => x.id ≠ n.id)) n)) ++
      idsOf (acc.2.filter (fun x => x.id ≠ n.id))).Nodup
    have pI := idsOf_insertSorted_perm sorts (acc.1.filter (fun x => x.id ≠ n.id)) n
    refine ((pI.append_right _).symm).nodup ?_
    rw [List.cons_append, List.nodup_cons]
    constructor
    · rw [List.mem_append]
      rintro (hmem | hmem)
      · exact not_mem_idsOf_filter_ne acc.1 n.id hmem
      · exact not_mem_idsOf_filter_ne acc.2 n.id hmem
    · exact hn.sublist ((idsOf_filter_sublist acc.1 _).append (idsOf_filter_sublist acc.2 _))

theorem merge_fold_inv {sorts : List NodeSort} :
    ∀ (page : List Node) (acc : List Node × List Node), pairInv sorts acc →
      pairInv sorts (page.foldl (insertPageNode sorts) acc) := by
  intro page
  induction page with
  | nil => intro acc h; exact h
  | cons n rest ih =>
    intro acc h
    rw [List.foldl_cons]
    exact ih _ (insertPageNode_inv h n)

theorem promote_fold_inv {sorts : List NodeSort} (complete : Bool) :
    ∀ (rem : List Node) (ord un : List Node), sortedBy sorts ord →
      (idsOf ord ++ idsOf un ++ idsOf rem).Nodup →
      pairInv sorts (rem.foldl (promoteStep sorts complete) (ord, un)) := by
  intro rem
  induction rem with
  | nil =>
    intro ord un hs hn
    exact ⟨hs, by simpa [idsOf] using hn⟩
  | cons n rest ih =>
    intro ord un hs hn
    have hmid : (n.id :: ((idsOf ord ++ idsOf un) ++ idsOf rest)).Nodup := by
      have : idsOf ord ++ idsOf un ++ idsOf (n :: rest) =
          (idsOf ord ++ idsOf un) ++ (n.id :: idsOf rest) := by
        simp [idsOf]
      rw [this, List.nodup_middle] at hn
      exact hn
    rw [List.foldl_cons]
    unfold promoteStep
    split
    · refine ih (insertSorted sorts ord n) un (insertSorted_sorted hs n) ?_
      have pI := idsOf_insertSorted_perm sorts ord n
      refine (((pI.append_right _).append_right _).symm).nodup ?_
      simpa using hmid
    · refine ih ord (un ++ [n]) hs ?_
      have : idsOf ord ++ idsOf (un ++ [n]) ++ idsOf rest =
          (idsOf ord ++ idsOf un) ++ (n.id :: idsOf rest) := by
        simp [idsOf]
      rw [this, List.nodup_middle]
      exact hmid

theorem onPageLoaded_inv {sort : NodeSort} {c : NodeCollection}
    (h : collInv (sortsList sort) c) (page : List Node) (tok : Option Nat) :
    collInv (sortsList sort) (onPageLoaded sort c page tok) := by
  obtain ⟨hs, hn⟩ := h
  have hmerged := merge_fold_inv page (c.ordered, c.unOrdered) ⟨hs, hn⟩
  obtain ⟨hms, hmn⟩ := hmerged
  have hfinal := promote_fold_inv (decide (tok = none))
    (page.foldl (insertPageNode (sortsList sort)) (c.ordered, c.unOrdered)).2
    (page.foldl (insertPageNode (sortsList sort)) (c.ordered, c.unOrdered)).1
    [] hms (by simpa [idsOf] using hmn)
  exact hfinal

theorem onCreate_inv {sort : NodeSort} {c : NodeCollection}
    (h : collInv (sortsList sort) c) (n : Node) :
    collInv (sortsList sort) (onCreate sort c n) := by
  obtain ⟨hs, hn⟩ := h
  unfold onCreate
  split
  · rename_i hdup
    refine ⟨insertSorted_sorted (sortedBy_filter hs _) n, ?_⟩
    show ((idsOf (insertSorted (sortsList sort)
        (c.ordered.filter (fun x => x.id ≠ n.id)) n)) ++ idsOf c.unOrdered).Nodup
    have pI := idsOf_insertSorted_perm (sortsList sort)
      (c.ordered.filter (fun x => x.id ≠ n.id)) n
    refine ((pI.append_right _).symm).nodup ?_
    rw [List.cons_append, List.nodup_cons]
    obtain ⟨hA, hB, hdisj⟩ := List.nodup_append.mp hn
    constructor
    · rw [List.mem_append]
      rintro (hmem | hmem)
      · exact not_mem_idsOf_filter_ne c.ordered n.id hmem
      · exact hdisj ((any_id_iff _ _).mp hdup) hmem
    · exact hn.sublist ((idsOf_filter_sublist c.ordered _).append (List.Sublist.refl _))
  · split
    · refine ⟨hs, ?_⟩
      show (idsOf c.ordered ++ idsOf (upsertData n c.unOrdered)).Nodup
      rwa [idsOf_upsertData]
    · rename_i hno hno2
      rw [any_id_iff] at hno hno2
      split
      · refine ⟨insertSorted_sorted hs n, ?_⟩
        show ((idsOf (insertSorted (sortsList sort) c.ordered n)) ++
          idsOf c.unOrdered).Nodup
        have pI := idsOf_insertSorted_perm (sortsList sort) c.ordered n
        refine ((pI.append_right _).symm).nodup ?_
        rw [List.cons_append, List.nodup_cons]
        constructor
        · rw [List.mem_append]
          rintro (hmem | hmem)
          · exact hno hmem
          · exact hno2 hmem
        · exact hn
      · refine ⟨hs, ?_⟩
        show (idsOf c.ordered ++ idsOf (c.unOrdered ++ [n])).Nodup
        have heq : idsOf c.ordered ++ idsOf (c.unOrdered ++ [n]) =
            (idsOf c.ordered ++ idsOf c.unOrdered) ++ (n.id :: ([] : List Nat)) := by
          simp [idsOf]
        rw [heq, List.nodup_middle, List.append_nil, List.nodup_cons]
        refine ⟨?_, hn⟩
        rw [List.mem_append]
        rintro (hmem | hmem)
        · exact hno hmem
        · exact hno2 hmem

theorem onRemove_inv {sorts : List NodeSort} {c : NodeCollection}
    (h : collInv sorts c) (i : Nat) : collInv sorts (onRemove c i) := by
  obtain ⟨hs, hn⟩ := h
  exact ⟨sortedBy_filter hs _,
    hn.sublist ((idsOf_filter_sublist _ _).append (idsOf_filter_sublist _ _))⟩

theorem reachable_collInv {sort : NodeSort} {c : NodeCollection}
    (h : Reachable sort c) : collInv (sortsList sort) c := by
  induction h with
  | init tok => exact ⟨List.Pairwise.nil, by simp [idsOf]⟩
  | create n _ ih => exact onCreate_inv ih n
  | copyIn n _ ih => exact onCreate_inv ih n
  | moveIn n _ ih => exact onCreate_inv ih n
  | remove i _ ih => exact onRemove_inv ih i
  | pageLoaded page tok _ ih => exact onPageLoaded_inv ih page tok

/-! ### Characterizations used by the claim theorems -/

theorem not_any_id {l : List Node} {i : Nat} (h : ¬ l.any (fun x => x.id = i) = true) :
    ∀ x ∈ l, x.id ≠ i := by
  intro x hx hct
  exact h (List.any_eq_true.mpr ⟨x, hx, by simpa using hct⟩)

theorem not_mem_idsOf_forall {l : List Node} {i : Nat} (h : i ∉ idsOf l) :
    ∀ x ∈ l, x.id ≠ i :=
  fun x hx hc => h ((mem_idsOf l i).mpr ⟨x, hx, hc⟩)

theorem insertSorted_any_id (sorts : List NodeSort) (l : List Node) (n : Node) :
    (insertSorted sorts l n).any (fun x => x.id = n.id) = true :=
  List.any_eq_true.mpr ⟨n, (mem_insertSorted sorts l n n).mpr (Or.inl rfl), by simp⟩

theorem append_any_id (l : List Node) (n : Node) :
    (l ++ [n]).any (fun x => x.id = n.id) = true :=
  List.any_eq_true.mpr ⟨n, by simp, by simp⟩

theorem upsertData_append_self {n : Node} {l : List Node}
    (h : ∀ x ∈ l, x.id ≠ n.id) : upsertData n (l ++ [n]) = l ++ [n] := by
  have h1 : upsertData n l = l := upsertData_eq_self h
  unfold upsertData at h1 ⊢
  rw [List.map_append, h1]
  simp

theorem onCreate_eq (sort : NodeSort) (ord un : List Node) (tok : Option Nat)
    (n : Node) :
    onCreate sort ⟨ord, un, tok⟩ n =
      if ord.any (fun x => x.id = n.id) = true then
        (⟨insertSorted (sortsList sort) (ord.filter (fun x => x.id ≠ n.id)) n,
          un, tok⟩ : NodeCollection)
      else if un.any (fun x => x.id = n.id) = true then ⟨ord, upsertData n un, tok⟩
      else if isPositionDeterminable (sortsList sort) ord n (decide (tok = none)) =
          true then
        ⟨insertSorted (sortsList sort) ord n, un, tok⟩
      else ⟨ord, un ++ [n], tok⟩ := rfl

theorem promote_fold_complete (sorts : List NodeSort) :
    ∀ (l : List Node) (acc : List Node × List Node),
      (l.foldl (promoteStep sorts true) acc).2 = acc.2 := by
  intro l
  induction l with
  | nil => intro acc; rfl
  | cons n rest ih =>
    intro acc
    rw [List.foldl_cons, ih]
    show (promoteStep sorts true acc n).2 = acc.2
    unfold promoteStep isPositionDeterminable
    simp

theorem onCreate_fresh_counts (sort : NodeSort) {c : NodeCollection} {n : Node}
    (h1 : n.id ∉ idsOf c.ordered) (h2 : n.id ∉ idsOf c.unOrdered) :
    (onCreate sort c n).ordered.length + (onCreate sort c n).unOrdered.length =
        c.ordered.length + c.unOrdered.length + 1 ∧
      (onCreate sort c n).pageToken = c.pageToken := by
  obtain ⟨ord, un, tok⟩ := c
  have g1 : ¬ ord.any (fun x => x.id = n.id) = true :=
    fun h => h1 ((any_id_iff ord n.id).mp h)
  have g2 : ¬ un.any (fun x => x.id = n.id) = true :=
    fun h => h2 ((any_id_iff un n.id).mp h)
  rw [onCreate_eq, if_neg g1, if_neg g2]
  split
  · refine ⟨?_, rfl⟩
    show (insertSorted (sortsList sort) ord n).length + un.length =
      ord.length + un.length + 1
    rw [insertSorted_length]
    omega
  · refine ⟨?_, rfl⟩
    show ord.length + (un ++ [n]).length = ord.length + un.length + 1
    simp
    omega

/-! ### Claim theorems -/

/-- C1: for every sort specification and every sequence of onCreate and
onPageLoaded operations (indeed of all reconciler operations) applied to a
Node Collection, the resulting `ordered` sequence is sorted according to the
Comparator for that sort specification. -/
theorem claim_C1_ordering_invariant (sort : NodeSort) (c : NodeCollection)
    (h : Reachable sort c) :
    c.ordered.Pairwise (fun a b => compareNodes sort a b ≠ .gt) :=
  (reachable_collInv h).1

theorem claim_C1_witness :
    (onCreate .NameAsc (onCreate .NameAsc ⟨[], [], none⟩ (mkFolder 1 ['b']))
        (mkFolder 2 ['a'])).ordered.Pairwise
      (fun a b => compareNodes .NameAsc a b ≠ .gt) :=
  claim_C1_ordering_invariant .NameAsc _
    (Reachable.create _ (Reachable.create _ (Reachable.init none)))

/-- C4: in every reachable state of a Node Collection, no node id appears in
both the `ordered` and `unOrdered` sequences simultaneously. -/
theorem claim_C4_disjointness (sort : NodeSort) (c : NodeCollection)
    (h : Reachable sort c) (i : Nat) :
    ¬ (i ∈ idsOf c.ordered ∧ i ∈ idsOf c.unOrdered) := by
  obtain ⟨-, hn⟩ := reachable_collInv h
  obtain ⟨-, -, hdisj⟩ := List.nodup_append.mp hn
  rintro ⟨hA, hB⟩
  exact hdisj hA hB

theorem claim_C4_witness :
    ¬ (1 ∈ idsOf (onCreate .NameAsc ⟨[], [], some 0⟩ (mkFolder 1 ['a'])).ordered ∧
       1 ∈ idsOf (onCreate .NameAsc ⟨[], [], some 0⟩ (mkFolder 1 ['a'])).unOrdered) :=
  claim_C4_disjointness .NameAsc _ (Reachable.create _ (Reachable.init (some 0))) 1

/-- C9: calling onCreate twice with the same node (same id, same data) is
equivalent to calling it once — an insert whose id already exists updates the
existing entry and never produces a second entry for the same id. -/
theorem claim_C9_onCreate_idempotent (sort : NodeSort) (c : NodeCollection)
    (n : Node) : onCreate sort (onCreate sort c n) n = onCreate sort c n := by
  obtain ⟨ord, un, tok⟩ := c
  by_cases h1 : ord.any (fun x => x.id = n.id) = true
  · have e1 : onCreate sort ⟨ord, un, tok⟩ n =
        ⟨insertSorted (sortsList sort) (ord.filter (fun x => x.id ≠ n.id)) n,
          un, tok⟩ := by
      rw [onCreate_eq, if_pos h1]
    rw [e1, onCreate_eq, if_pos (insertSorted_any_id _ _ _)]
    have hp : ((fun x => decide (x.id ≠ n.id)) n) = false := by simp
    have hfi : (insertSorted (sortsList sort) (ord.filter (fun x => x.id ≠ n.id))
        n).filter (fun x => x.id ≠ n.id) = ord.filter (fun x => x.id ≠ n.id) := by
      rw [filter_insertSorted hp, filter_ne_idem]
    rw [hfi]
  · by_cases h2 : un.any (fun x => x.id = n.id) = true
    · have e1 : onCreate sort ⟨ord, un, tok⟩ n = ⟨ord, upsertData n un, tok⟩ := by
        rw [onCreate_eq, if_neg h1, if_pos h2]
      rw [e1, onCreate_eq, if_neg h1, if_pos (upsertData_any n un h2),
        upsertData_idem]
    · by_cases h3 :
        isPositionDeterminable (sortsList sort) ord n (decide (tok = none)) = true
      · have e1 : onCreate sort ⟨ord, un, tok⟩ n =
            ⟨insertSorted (sortsList sort) ord n, un, tok⟩ := by
          rw [onCreate_eq, if_neg h1, if_neg h2, if_pos h3]
        rw [e1, onCreate_eq, if_pos (insertSorted_any_id _ _ _)]
        have hp : ((fun x => decide (x.id ≠ n.id)) n) = false := by simp
        have hfi : (insertSorted (sortsList sort) ord n).filter
            (fun x => x.id ≠ n.id) = ord := by
          rw [filter_insertSorted hp, filter_ne_eq_self (not_any_id h1)]
        rw [hfi]
      · have e1 : onCreate sort ⟨ord, un, tok⟩ n = ⟨ord, un ++ [n], tok⟩ := by
          rw [onCreate_eq, if_neg h1, if_neg h2, if_neg h3]
        rw [e1, onCreate_eq, if_neg h1, if_pos (append_any_id un n),
          upsertData_append_self (not_any_id h2)]

/-- C2: while the page token is non-null, a fresh node inserted via
onCreate/onCopyIn/onMoveIn is placed into `ordered` at its insertion index
exactly when that index is strictly below the length of the ordered sequence
(its position is determinable against the loaded prefix); otherwise it is
appended at the end of `unOrdered`. -/
theorem claim_C2_partial_insert (sort : NodeSort) (c : NodeCollection) (n : Node)
    (htok : c.pageToken ≠ none) (h1 : n.id ∉ idsOf c.ordered)
    (h2 : n.id ∉ idsOf c.unOrdered) :
    (findInsertionIndex (sortsList sort) c.ordered n < c.ordered.length →
      onCreate sort c n =
        { c with ordered :=
            insertAt c.ordered (findInsertionIndex (sortsList sort) c.ordered n) n }) ∧
    (¬ findInsertionIndex (sortsList sort) c.ordered n < c.ordered.length →
      onCreate sort c n = { c with unOrdered := c.unOrdered ++ [n] }) ∧
    onCopyIn sort c n = onCreate sort c n ∧ onMoveIn sort c n = onCreate sort c n := by
  obtain ⟨ord, un, tok⟩ := c
  have g1 : ¬ ord.any (fun x => x.id = n.id) = true :=
    fun h => h1 ((any_id_iff ord n.id).mp h)
  have g2 : ¬ un.any (fun x => x.id = n.id) = true :=
    fun h => h2 ((any_id_iff un n.id).mp h)
  have hcomp : decide (tok = none) = false := decide_eq_false htok
  refine ⟨?_, ?_, rfl, rfl⟩
  · intro hidx
    have hdet : isPositionDeterminable (sortsList sort) ord n
        (decide (tok = none)) = true := by
      unfold isPositionDeterminable
      simp [hidx]
    rw [onCreate_eq, if_neg g1, if_neg g2, if_pos hdet]
    rfl
  · intro hidx
    have hdet : ¬ isPositionDeterminable (sortsList sort) ord n
        (decide (tok = none)) = true := by
      unfold isPositionDeterminable
      simp [hidx, hcomp]
    rw [onCreate_eq, if_neg g1, if_neg g2, if_neg hdet]

theorem claim_C2_witness :
    onCreate .NameAsc ⟨[mkFolder 1 ['b']], [], some 0⟩ (mkFolder 2 ['a']) =
      ⟨insertAt [mkFolder 1 ['b']]
          (findInsertionIndex (sortsList .NameAsc) [mkFolder 1 ['b']]
            (mkFolder 2 ['a']))
          (mkFolder 2 ['a']), [], some 0⟩ :=
  (claim_C2_partial_insert .NameAsc ⟨[mkFolder 1 ['b']], [], some 0⟩
      (mkFolder 2 ['a']) (by decide) (by decide) (by decide)).1 (by decide)

/-- C3: on a page load the new page's nodes are inserted into `ordered` in
sort order and the previously unordered nodes are re-evaluated in their
original order; whenever the new page token is null, every position becomes
determinable and the `unOrdered` sequence is empty afterwards — in particular
ordered=[a], unordered=[z], loading page [m] with a null token yields
ordered=[a, m, z] and an empty unordered sequence. -/
theorem claim_C3_page_merge :
    (∀ (sort : NodeSort) (c : NodeCollection) (page : List Node),
      (onPageLoaded sort c page none).unOrdered = []) ∧
    onPageLoaded .NameAsc ⟨[mkFolder 1 ['a']], [mkFolder 3 ['z']], some 7⟩
        [mkFolder 2 ['m']] none =
      ⟨[mkFolder 1 ['a'], mkFolder 2 ['m'], mkFolder 3 ['z']], [], none⟩ := by
  constructor
  · intro sort c page
    have h := promote_fold_complete (sortsList sort)
      ((page.foldl (insertPageNode (sortsList sort)) (c.ordered, c.unOrdered)).2)
      ((page.foldl (insertPageNode (sortsList sort)) (c.ordered, c.unOrdered)).1, [])
    exact h
  · decide

/-- C5: onRemove removes the given id from whichever of the two sequences
contains it, is a no-op (not an error) when the id is absent from both, and
leaves the relative order of all remaining members unchanged (both resulting
sequences are sublists of the originals, retaining exactly the members whose
id differs). -/
theorem claim_C5_onRemove (c : NodeCollection) (i : Nat) :
    ((i ∉ idsOf c.ordered ∧ i ∉ idsOf c.unOrdered) → onRemove c i = c) ∧
    List.Sublist (onRemove c i).ordered c.ordered ∧
    List.Sublist (onRemove c i).unOrdered c.unOrdered ∧
    (∀ x, x ∈ (onRemove c i).ordered ↔ x ∈ c.ordered ∧ x.id ≠ i) ∧
    (∀ x, x ∈ (onRemove c i).unOrdered ↔ x ∈ c.unOrdered ∧ x.id ≠ i) := by
  obtain ⟨ord, un, tok⟩ := c
  refine ⟨?_, List.filter_sublist ord, List.filter_sublist un, ?_, ?_⟩
  · rintro ⟨h1, h2⟩
    show (⟨ord.filter (fun x => x.id ≠ i), un.filter (fun x => x.id ≠ i), tok⟩ :
      NodeCollection) = ⟨ord, un, tok⟩
    rw [filter_ne_eq_self (not_mem_idsOf_forall h1),
      filter_ne_eq_self (not_mem_idsOf_forall h2)]
  · intro x
    show x ∈ ord.filter (fun y => y.id ≠ i) ↔ _
    simp [List.mem_filter]
  · intro x
    show x ∈ un.filter (fun y => y.id ≠ i) ↔ _
    simp [List.mem_filter]

theorem claim_C5_witness :
    onRemove ⟨[mkFolder 1 ['a'], mkFolder 2 ['b']], [mkFolder 3 ['c']], none⟩ 9 =
      ⟨[mkFolder 1 ['a'], mkFolder 2 ['b']], [mkFolder 3 ['c']], none⟩ :=
  (claim_C5_onRemove ⟨[mkFolder 1 ['a'], mkFolder 2 ['b']],
    [mkFolder 3 ['c']], none⟩ 9).1 (by decide)

/-- C6: pageFull is true exactly when the visible count reaches the target
page size while the page token is non-null, and in particular it is true
immediately after a local insert of a fresh node brings the total count to the
target while more pages remain. -/
theorem claim_C6_pageFull :
    (∀ (c : NodeCollection) (t : Nat),
      pageFull c t = true ↔
        t ≤ c.ordered.length + c.unOrdered.length ∧ c.pageToken ≠ none) ∧
    (∀ (sort : NodeSort) (c : NodeCollection) (n : Node) (t : Nat),
      n.id ∉ idsOf c.ordered → n.id ∉ idsOf c.unOrdered →
      c.ordered.length + c.unOrdered.length + 1 = t → c.pageToken ≠ none →
      pageFull (onCreate sort c n) t = true) := by
  constructor
  · intro c t
    unfold pageFull
    simp
  · intro sort c n t h1 h2 hlen htok
    obtain ⟨hcnt, htokeq⟩ := onCreate_fresh_counts sort h1 h2
    unfold pageFull
    rw [htokeq, hcnt, ← hlen]
    simp [htok]

theorem claim_C6_witness :
    pageFull (onCreate .NameAsc ⟨[mkFolder 1 ['a']], [], some 3⟩
      (mkFolder 2 ['b'])) 2 = true :=
  claim_C6_pageFull.2 .NameAsc ⟨[mkFolder 1 ['a']], [], some 3⟩ (mkFolder 2 ['b'])
    2 (by decide) (by decide) (by decide) (by decide)

/-- C7: under a non-size sort criterion the effective key list is the
ascending type key followed by the criterion, so any folder-like node
precedes any file-like node regardless of the field values; under a size sort
the effective key list is the size sort alone and the node category is not
consulted at all — in particular a folder named b precedes a file named a
under the name-ascending sort, while under the size-descending sort the same
two nodes order purely by size. -/
theorem claim_C7_comparator :
    (∀ s : NodeSort, s ≠ .SizeAsc → s ≠ .SizeDesc →
      sortsList s = [.TypeAsc, s]) ∧
    sortsList .SizeAsc = [.SizeAsc] ∧ sortsList .SizeDesc = [.SizeDesc] ∧
    (∀ (s : NodeSort) (a b : Node), s ≠ .SizeAsc → s ≠ .SizeDesc →
      a.nodeType = .folder → b.nodeType = .file → compareNodes s a b = .lt) ∧
    (∀ (a b : Node) (ta tb : NodeCat),
      compareNodes .SizeAsc { a with nodeType := ta } { b with nodeType := tb } =
          compareNodes .SizeAsc a b ∧
        compareNodes .SizeDesc { a with nodeType := ta } { b with nodeType := tb } =
          compareNodes .SizeDesc a b) ∧
    compareNodes .NameAsc (mkFolder 1 ['b']) (mkFile 2 ['a'] 5) = .lt ∧
    compareNodes .SizeDesc (mkFile 2 ['a'] 5) (mkFolder 1 ['b']) = .lt := by
  refine ⟨?_, rfl, rfl, ?_, ?_, by decide, by decide⟩
  · intro s h1 h2
    simp [sortsList, h1, h2]
  · intro s a b h1 h2 hta htb
    unfold compareNodes
    have hsl : sortsList s = [.TypeAsc, s] := by simp [sortsList, h1, h2]
    rw [hsl]
    show (cmpKey .TypeAsc a b).then _ = .lt
    have hkey : cmpKey .TypeAsc a b = .lt := by
      show cmpOfLO (typeRank a.nodeType) (typeRank b.nodeType) = .lt
      rw [hta, htb]
      decide
    rw [hkey]
    rfl
  · intro a b ta tb
    exact ⟨rfl, rfl⟩

theorem claim_C7_witness : sortsList .NameAsc = [.TypeAsc, .NameAsc] :=
  claim_C7_comparator.1 .NameAsc (by decide) (by decide)

/-- C8: the sorted-insertion index function returns, for a sorted sequence,
the leftmost index at which the candidate can be inserted while preserving
sort order — every element strictly before the returned index compares below
the candidate, inserting at the index keeps the sequence sorted — it returns
0 for an empty sequence, it always returns a valid index between 0 and the
sequence length, and addNodeInSortedList is this index function applied to
the effective key list of the sort criterion. -/
theorem claim_C8_insertion_index (sorts : List NodeSort) (seq : List Node)
    (cand : Node) :
    findInsertionIndex sorts [] cand = 0 ∧
    findInsertionIndex sorts seq cand ≤ seq.length ∧
    (∀ x ∈ seq.take (findInsertionIndex sorts seq cand),
      cmpKeys sorts cand x = .gt) ∧
    (sortedBy sorts seq →
      sortedBy sorts (insertAt seq (findInsertionIndex sorts seq cand) cand)) ∧
    (∀ (nodes : List Node) (node : Node) (sort : NodeSort),
      addNodeInSortedList nodes node sort =
        findInsertionIndex (sortsList sort) nodes node) := by
  refine ⟨rfl, findInsertionIndex_le_length sorts seq cand,
    take_findInsertionIndex_gt sorts seq cand, ?_, fun _ _ _ => rfl⟩
  intro hs
  exact insertSorted_sorted hs cand

theorem claim_C8_witness :
    sortedBy (sortsList .NameAsc)
      (insertAt [mkFolder 1 ['a']]
        (findInsertionIndex (sortsList .NameAsc) [mkFolder 1 ['a']]
          (mkFolder 2 ['b']))
        (mkFolder 2 ['b'])) :=
  (claim_C8_insertion_index (sortsList .NameAsc) [mkFolder 1 ['a']]
    (mkFolder 2 ['b'])).2.2.2.1 (by simp [sortedBy])

/-- C10: when node ids are removed from a cached findNodes listing (unshare
via removeNodeFromFilter, or trash via the useTrashNodesMutation update), if
the listing still has a non-null page token and both filtered sequences
become empty, the whole cached entry is deleted (the DELETE sentinel,
`none`); otherwise the listing is rewritten with its args and page_token
unchanged and the filtered sequences in place. -/
theorem claim_C10_cache_delete (existing : FindNodesCachedObject) (nodeId : Nat)
    (checkFilter : FindNodesCachedObject → Bool) (trashedNodes : List Nat)
    (fid : Nat) :
    (checkFilter existing = true →
      ((existing.page_token ≠ none ∧
          existing.ordered.filter (fun x => x.id ≠ nodeId) = [] ∧
          existing.unOrdered.filter (fun x => x.id ≠ nodeId) = []) →
        removeNodeFromFilter existing nodeId checkFilter = none) ∧
      (¬ (existing.page_token ≠ none ∧
          existing.ordered.filter (fun x => x.id ≠ nodeId) = [] ∧
          existing.unOrdered.filter (fun x => x.id ≠ nodeId) = []) →
        removeNodeFromFilter existing nodeId checkFilter =
          some { args := existing.args, page_token := existing.page_token,
                 ordered := existing.ordered.filter (fun x => x.id ≠ nodeId),
                 unOrdered := existing.unOrdered.filter (fun x => x.id ≠ nodeId) })) ∧
    (existing.args.folder_id = some fid → fid ≠ trashRootId →
      ((existing.page_token ≠ none ∧
          existing.ordered.filter (fun x => ¬ trashedNodes.contains x.id) = [] ∧
          existing.unOrdered.filter (fun x => ¬ trashedNodes.contains x.id) = []) →
        trashNodesFindNodesUpdate existing trashedNodes = none) ∧
      (¬ (existing.page_token ≠ none ∧
          existing.ordered.filter (fun x => ¬ trashedNodes.contains x.id) = [] ∧
          existing.unOrdered.filter (fun x => ¬ trashedNodes.contains x.id) = []) →
        trashNodesFindNodesUpdate existing trashedNodes =
          some { args := existing.args, page_token := existing.page_token,
                 ordered :=
                   existing.ordered.filter (fun x => ¬ trashedNodes.contains x.id),
                 unOrdered :=
                   existing.unOrdered.filter
                     (fun x => ¬ trashedNodes.contains x.id) })) := by
  constructor
  · intro hc
    constructor
    · intro h
      unfold removeNodeFromFilter
      rw [if_pos hc]
      dsimp only
      rw [if_pos h]
    · intro h
      unfold removeNodeFromFilter
      rw [if_pos hc]
      dsimp only
      rw [if_neg h]
  · intro hfid hfne
    have hcond : existing.args.folder_id ≠ none ∧
        existing.args.folder_id ≠ some trashRootId := by
      rw [hfid]
      simp [hfne]
    constructor
    · intro h
      unfold trashNodesFindNodesUpdate
      rw [if_pos hcond]
      dsimp only
      rw [if_pos h]
    · intro h
      unfold trashNodesFindNodesUpdate
      rw [if_pos hcond]
      dsimp only
      rw [if_neg h]

theorem claim_C10_witness :
    removeNodeFromFilter
        ⟨⟨some 5, none, some true⟩, some 1, [mkFolder 1 ['a']], []⟩ 1
        (fun _ => true) = none :=
  ((claim_C10_cache_delete
      ⟨⟨some 5, none, some true⟩, some 1, [mkFolder 1 ['a']], []⟩ 1
      (fun _ => true) [] 5).1 rfl).1 (by decide)
